import Mathlib

/-!
Verification of the SAT-based course-scheduling core of `app.py`
(function `generate_timetable`).

The embedding models:
* an input row as three optional string fields (`none` models a pandas
  missing value, which `str(...)`/`astype(str)` coerces to the literal
  string "nan");
* the per-course preference dictionary and the course→faculty dictionary
  with Python's last-write-wins semantics;
* the `(course, slot) → id` dictionary built by the nested `for` loops,
  with Python's insert-or-overwrite-in-place dictionary update;
* the three CNF clause families exactly as `generate_timetable` emits them;
* the SAT backend as an exhaustive search over all assignments of the
  allocated variables (sound and complete for the finite formulas built
  here), with the decoding loop reading the model exactly as the source.
-/

namespace CourseScheduler

/-- One input row of the preference table: `Course`, `Faculty`,
`PreferredSlots` columns; `none` models a missing (NaN) cell. -/
structure Row where
  Course : Option String
  Faculty : Option String
  PreferredSlots : Option String
deriving DecidableEq

/-- One row of the decoded timetable. -/
structure OutRow where
  Course : String
  Faculty : String
  Slot : String
deriving DecidableEq

/-- Pandas/`str()` coercion of a possibly-missing cell: a missing value
prints as the string "nan". -/
def pdStr : Option String → String
  | none => "nan"
  | some s => s

/-- Python `str.strip` whitespace set. -/
def pyIsSpace (c : Char) : Bool :=
  c = ' ' || c = '\t' || c = '\n' || c = '\r' || c = '\x0b' || c = '\x0c'

/-- Strip leading and trailing whitespace from a character list. -/
def trimChars (l : List Char) : List Char :=
  ((l.dropWhile pyIsSpace).reverse.dropWhile pyIsSpace).reverse

/-- Python `str.strip()`. -/
def pyStrip (s : String) : String := String.mk (trimChars s.data)

/-- Split a character list at commas (Python `str.split(",")`):
an empty input yields one empty token. -/
def splitCommaChars : List Char → List Char → List (List Char)
  | [], acc => [acc.reverse]
  | c :: rest, acc =>
    if c = ',' then acc.reverse :: splitCommaChars rest []
    else splitCommaChars rest (c :: acc)

/-- Python `s.split(",")`. -/
def pySplitComma (s : String) : List String :=
  (splitCommaChars s.data []).map String.mk

/-- The per-row preference parsing of `generate_timetable`:
`raw_slots = str(row["PreferredSlots"]).strip() if pd.notna(...) else ""`;
if nonempty, split on commas, strip each token, drop empty tokens. -/
def splitPrefs : Option String → List String
  | none => []
  | some s =>
    if pyStrip s = "" then []
    else ((pySplitComma (pyStrip s)).map pyStrip).filter (fun t => t ≠ "")

/-- `courses = data["Course"].astype(str).tolist()`. -/
def coursesOf (rows : List Row) : List String :=
  rows.map (fun r => pdStr r.Course)

/-- The last row carrying a given course identifier: Python dictionaries
built row by row let the later row win. -/
def lastRowFor (rows : List Row) (c : String) : Option Row :=
  rows.reverse.find? (fun r => decide (pdStr r.Course = c))

/-- `faculty_map = dict(zip(courses, faculties))` as a function
(last row with the course identifier wins). -/
def facultyMapOf (rows : List Row) (c : String) : String :=
  match lastRowFor rows c with
  | some r => pdStr r.Faculty
  | none => ""

/-- The `preferences` dictionary after the collection loop and the
fallback loop: the last row with the course identifier wins, and an
empty parsed list becomes `["Unassigned"]`. -/
def preferencesOf (rows : List Row) (c : String) : List String :=
  match lastRowFor rows c with
  | some r =>
    if splitPrefs r.PreferredSlots = [] then ["Unassigned"]
    else splitPrefs r.PreferredSlots
  | none => []

/-- Whether the fallback branch fires for a course identifier. -/
def needsFallback (rows : List Row) (c : String) : Bool :=
  match lastRowFor rows c with
  | some r => decide (splitPrefs r.PreferredSlots = [])
  | none => false

/-- An enumeration of the `all_slots` set: every parsed token of every
row (also from rows later overwritten in the preference dictionary),
plus the sentinel when some course triggers the fallback. -/
def allSlotsList (rows : List Row) : List String :=
  (rows.flatMap (fun r => splitPrefs r.PreferredSlots)) ++
    (if (coursesOf rows).any (needsFallback rows) then ["Unassigned"] else [])

/-- Lexicographic strict order on character lists, comparing code points
(Python's string ordering). -/
def lexLt : List Char → List Char → Bool
  | [], [] => false
  | [], _ :: _ => true
  | _ :: _, [] => false
  | a :: as, b :: bs =>
    if a.toNat < b.toNat then true
    else if b.toNat < a.toNat then false
    else lexLt as bs

/-- Python `<` on strings. -/
def strLt (a b : String) : Bool := lexLt a.data b.data

/-- Python `<=` on strings. -/
def strLe (a b : String) : Bool := strLt a b || decide (a = b)

/-- Python `sorted` on strings (lexicographic by code point). -/
def sortStrings (l : List String) : List String :=
  List.insertionSort (fun a b => strLe a b = true) l

/-- `slots = sorted(list(all_slots))` from one enumeration of the set. -/
def slotsOfEnum (enum : List String) : List String :=
  sortStrings enum.dedup

/-- The slot universe of a request. -/
def slotsOf (rows : List Row) : List String :=
  slotsOfEnum (allSlotsList rows)

/-- The `(course, slot) → variable` dictionary, as an ordered
association list (Python dictionaries preserve insertion order). -/
abbrev VarDict := List ((String × String) × Nat)

/-- Python `d[k] = v`: overwrite in place when the key exists,
append otherwise. -/
def dictUpdate (d : VarDict) (k : String × String) (v : Nat) : VarDict :=
  if d.any (fun p => decide (p.1 = k)) then
    d.map (fun p => if p.1 = k then (k, v) else p)
  else d ++ [(k, v)]

/-- Inner allocation loop: `for s in slots: var_map[(c, s)] = counter;
counter += 1`. -/
def allocSlots (c : String) : List String → VarDict × Nat → VarDict × Nat
  | [], acc => acc
  | s :: rest, acc => allocSlots c rest (dictUpdate acc.1 (c, s) acc.2, acc.2 + 1)

/-- Outer allocation loop over the course list. -/
def allocAll (slots : List String) : List String → VarDict × Nat → VarDict × Nat
  | [], acc => acc
  | c :: cs, acc => allocAll slots cs (allocSlots c slots acc)

/-- The `var_map` dictionary built by `generate_timetable`. -/
def varMapOf (courses slots : List String) : VarDict :=
  (allocAll slots courses ([], 1)).1

/-- Membership lookup in the dictionary (`(c, s) in var_map` plus
`var_map[(c, s)]`). -/
def findEntry (vm : VarDict) (k : String × String) : Option ((String × String) × Nat) :=
  vm.find? (fun p => decide (p.1 = k))

/-- `var_map[(c, s)]` (0 when absent; the source only looks up
present keys). -/
def lookupVar (vm : VarDict) (c s : String) : Nat :=
  match findEntry vm (c, s) with
  | some p => p.2
  | none => 0

/-- A positive literal. -/
def posLit (v : Nat) : Int := Int.ofNat v

/-- A negated literal. -/
def negLit (v : Nat) : Int := -(Int.ofNat v)

/-- All index-ordered pairs of a list: `for i in range(n): for j in
range(i+1, n)`. -/
def ordPairs {α : Type} : List α → List (α × α)
  | [] => []
  | x :: xs => (xs.map (fun y => (x, y))) ++ ordPairs xs

/-- The key order of a Python dictionary built by repeated
`setdefault`: first-appearance order. -/
def firstSeen (l : List String) : List String :=
  l.foldl (fun acc x => if x ∈ acc then acc else acc ++ [x]) []

/-- Coverage family: for each course, the positive variables of its own
preference list (keys checked for membership as the source does), the
clause skipped when empty. -/
def coverageClauses (courses : List String) (prefs : String → List String)
    (vm : VarDict) : List (List Int) :=
  (courses.map (fun c =>
    ((prefs c).filter (fun s => (findEntry vm (c, s)).isSome)).map
      (fun s => posLit (lookupVar vm c s)))).filter (fun cl => cl ≠ [])

/-- At-most-one family: for each course, every index-ordered pair of
slots of the full universe. -/
def amoClauses (courses slots : List String) (vm : VarDict) : List (List Int) :=
  courses.flatMap (fun c =>
    (ordPairs slots).map (fun q =>
      [negLit (lookupVar vm c q.1), negLit (lookupVar vm c q.2)]))

/-- No-faculty-clash family: per slot, courses grouped by faculty in
first-appearance order, every index-ordered pair inside a group. -/
def clashClauses (courses slots : List String) (vm : VarDict)
    (fm : String → String) : List (List Int) :=
  slots.flatMap (fun s =>
    (firstSeen (courses.map fm)).flatMap (fun p =>
      (ordPairs (courses.filter (fun c => decide (fm c = p)))).map (fun q =>
        [negLit (lookupVar vm q.1 s), negLit (lookupVar vm q.2 s)])))

/-- The encoding stage (normalize, allocate, build clauses), with the
enumeration order of the `all_slots` set made explicit. -/
def encodeFrom (rows : List Row) (enum : List String) :
    VarDict × List (List Int) :=
  (varMapOf (coursesOf rows) (slotsOfEnum enum),
   coverageClauses (coursesOf rows) (preferencesOf rows)
       (varMapOf (coursesOf rows) (slotsOfEnum enum))
     ++ amoClauses (coursesOf rows) (slotsOfEnum enum)
       (varMapOf (coursesOf rows) (slotsOfEnum enum))
     ++ clashClauses (coursesOf rows) (slotsOfEnum enum)
       (varMapOf (coursesOf rows) (slotsOfEnum enum)) (facultyMapOf rows))

/-- The CNF formula handed to the solver. -/
def cnfOf (rows : List Row) : List (List Int) :=
  (encodeFrom rows (allSlotsList rows)).2

/-- The number of allocated variable ids (`counter - 1`). -/
def numVars (rows : List Row) : Nat :=
  (coursesOf rows).length * (slotsOf rows).length

/-- `var in model`: the model assigns a variable true. -/
def modelTrue (m : List Bool) (v : Nat) : Bool := m.getD (v - 1) false

/-- Truth of one literal under a model. -/
def evalLit (m : List Bool) (lit : Int) : Bool :=
  if 0 < lit then modelTrue m lit.toNat else !(modelTrue m (-lit).toNat)

/-- Truth of one clause (a disjunction). -/
def evalClause (m : List Bool) (cl : List Int) : Bool := cl.any (evalLit m)

/-- Truth of a CNF formula (a conjunction of clauses). -/
def satCNF (m : List Bool) (cnf : List (List Int)) : Bool :=
  cnf.all (evalClause m)

/-- All assignments of `n` variables. -/
def allAssignments : Nat → List (List Bool)
  | 0 => [[]]
  | n + 1 => (allAssignments n).flatMap (fun a => [false :: a, true :: a])

/-- The SAT backend: exhaustive, sound and complete search. -/
def findModel (n : Nat) (cnf : List (List Int)) : Option (List Bool) :=
  (allAssignments n).find? (fun m => satCNF m cnf)

/-- Satisfiability of the formula over the allocated variables. -/
def Satisfiable (n : Nat) (cnf : List (List Int)) : Prop :=
  ∃ m : List Bool, m.length = n ∧ satCNF m cnf = true

/-- The decoding loop: one output record per dictionary entry whose
variable the model assigns true, in dictionary order. -/
def decode (vm : VarDict) (fm : String → String) (m : List Bool) : List OutRow :=
  vm.filterMap (fun e => if modelTrue m e.2 then some ⟨e.1.1, fm e.1.1, e.1.2⟩ else none)

/-- `generate_timetable`: encode, solve, decode; `none` is the
infeasibility signal (`return None`). -/
def generate_timetable (rows : List Row) : Option (List OutRow) :=
  match findModel (numVars rows) (cnfOf rows) with
  | some m => some (decode (varMapOf (coursesOf rows) (slotsOf rows)) (facultyMapOf rows) m)
  | none => none

/-- The allocator as the specification words it: iterate courses in row
order and slots in sorted order, handing out sequential ids from a
running counter; one block of `slots.length` ids per course. -/
def blockFor (c : String) (slots : List String) (n : Nat) : VarDict :=
  (slots.zip (List.range' n slots.length)).map (fun q => ((c, q.1), q.2))

/-- Specification-side allocator: sequential blocks starting at `n`. -/
def vmSpecFrom (slots : List String) : List String → Nat → VarDict
  | [], _ => []
  | c :: cs, n => blockFor c slots n ++ vmSpecFrom slots cs (n + slots.length)

/-! ### The exhaustive solver is sound and complete -/

theorem mem_allAssignments_iff (n : Nat) (m : List Bool) :
    m ∈ allAssignments n ↔ m.length = n := by
  induction n generalizing m with
  | zero => simp [allAssignments, List.length_eq_zero]
  | succ k ih =>
    simp only [allAssignments, List.mem_flatMap]
    constructor
    · rintro ⟨a, ha, hm⟩
      have hm' : m = false :: a ∨ m = true :: a := by simpa using hm
      have hlen : a.length = k := (ih a).mp ha
      rcases hm' with h | h <;> subst h <;> simp [hlen]
    · intro h
      cases m with
      | nil => simp at h
      | cons b t =>
        refine ⟨t, (ih t).mpr (by simpa using h), ?_⟩
        cases b <;> simp

theorem findModel_eq_none_iff (n : Nat) (cnf : List (List Int)) :
    findModel n cnf = none ↔ ¬ Satisfiable n cnf := by
  rw [findModel, List.find?_eq_none]
  constructor
  · rintro h ⟨m, hlen, hsat⟩
    exact absurd hsat (by simpa using h m ((mem_allAssignments_iff n m).mpr hlen))
  · intro h m hm
    by_contra hb
    exact h ⟨m, (mem_allAssignments_iff n m).mp hm, by simpa using hb⟩

theorem findModel_some {n : Nat} {cnf : List (List Int)} {m : List Bool}
    (h : findModel n cnf = some m) : m.length = n ∧ satCNF m cnf = true := by
  have hm := List.mem_of_find?_eq_some h
  have hp := List.find?_some h
  exact ⟨(mem_allAssignments_iff n m).mp hm, by simpa using hp⟩

theorem evalLit_posLit (m : List Bool) (v : Nat) (hv : 1 ≤ v) :
    evalLit m (posLit v) = modelTrue m v := by
  have h0 : (0 : Int) < Int.ofNat v := Int.ofNat_lt.mpr hv
  rw [evalLit, posLit, if_pos h0]
  simp

theorem evalLit_negLit (m : List Bool) (v : Nat) :
    evalLit m (negLit v) = !(modelTrue m v) := by
  have hnn : (0 : Int) ≤ Int.ofNat v := Int.ofNat_nonneg v
  have h0 : ¬ (0 : Int) < negLit v := by
    simp only [negLit]
    omega
  rw [evalLit, if_neg h0]
  simp [negLit]

theorem satCNF_clause {m : List Bool} {cnf : List (List Int)} {cl : List Int}
    (h : satCNF m cnf = true) (hcl : cl ∈ cnf) :
    ∃ lit ∈ cl, evalLit m lit = true := by
  have hall := (List.all_eq_true.mp h) cl hcl
  simpa [evalClause, List.any_eq_true] using hall

/-! ### The string order -/

theorem lexLt_irrefl (l : List Char) : lexLt l l = false := by
  induction l with
  | nil => rfl
  | cons a as ih => simp [lexLt, ih]

theorem lexLt_asymm : ∀ {l1 l2 : List Char},
    lexLt l1 l2 = true → lexLt l2 l1 = true → False
  | [], [], h1, _ => by simp [lexLt] at h1
  | [], _ :: _, _, h2 => by simp [lexLt] at h2
  | _ :: _, [], h1, _ => by simp [lexLt] at h1
  | a :: as, b :: bs, h1, h2 => by
    by_cases hab : a.toNat < b.toNat
    · rw [lexLt, if_neg (by omega), if_pos hab] at h2
      exact absurd h2 (by simp)
    · by_cases hba : b.toNat < a.toNat
      · rw [lexLt, if_neg hab, if_pos hba] at h1
        exact absurd h1 (by simp)
      · rw [lexLt, if_neg hab, if_neg hba] at h1
        rw [lexLt, if_neg hba, if_neg hab] at h2
        exact lexLt_asymm h1 h2

theorem lexLt_total : ∀ (l1 l2 : List Char),
    lexLt l1 l2 = true ∨ lexLt l2 l1 = true ∨ l1 = l2
  | [], [] => Or.inr (Or.inr rfl)
  | [], _ :: _ => Or.inl rfl
  | _ :: _, [] => Or.inr (Or.inl rfl)
  | a :: as, b :: bs => by
    by_cases hab : a.toNat < b.toNat
    · exact Or.inl (by rw [lexLt, if_pos hab])
    · by_cases hba : b.toNat < a.toNat
      · exact Or.inr (Or.inl (by rw [lexLt, if_pos hba]))
      · have hnat : a.toNat = b.toNat := by omega
        have hch : a = b := Char.ext (UInt32.ext hnat)
        subst hch
        rcases lexLt_total as bs with h | h | h
        · exact Or.inl (by rw [lexLt, if_neg hab, if_neg hba]; exact h)
        · exact Or.inr (Or.inl (by rw [lexLt, if_neg hba, if_neg hab]; exact h))
        · exact Or.inr (Or.inr (by rw [h]))

theorem lexLt_trans : ∀ {l1 l2 l3 : List Char},
    lexLt l1 l2 = true → lexLt l2 l3 = true → lexLt l1 l3 = true
  | [], [], _, h1, _ => by simp [lexLt] at h1
  | [], _ :: _, [], _, h2 => by simp [lexLt] at h2
  | [], _ :: _, _ :: _, _, _ => rfl
  | _ :: _, [], _, h1, _ => by simp [lexLt] at h1
  | _ :: _, _ :: _, [], _, h2 => by simp [lexLt] at h2
  | a :: as, b :: bs, c :: cs, h1, h2 => by
    rw [lexLt]
    by_cases hab : a.toNat < b.toNat
    · by_cases hbc : b.toNat < c.toNat
      · rw [if_pos (by omega)]
      · by_cases hcb : c.toNat < b.toNat
        · rw [lexLt, if_neg hbc, if_pos hcb] at h2
          exact absurd h2 (by simp)
        · rw [if_pos (by omega)]
    · by_cases hba : b.toNat < a.toNat
      · rw [lexLt, if_neg hab, if_pos hba] at h1
        exact absurd h1 (by simp)
      · by_cases hbc : b.toNat < c.toNat
        · rw [if_pos (by omega)]
        · by_cases hcb : c.toNat < b.toNat
          · rw [lexLt, if_neg hbc, if_pos hcb] at h2
            exact absurd h2 (by simp)
          · rw [lexLt, if_neg hab, if_neg hba] at h1
            rw [lexLt, if_neg hbc, if_neg hcb] at h2
            rw [if_neg (by omega), if_neg (by omega)]
            exact lexLt_trans h1 h2

theorem strLt_asymm {a b : String} (h1 : strLt a b = true)
    (h2 : strLt b a = true) : False :=
  lexLt_asymm h1 h2

theorem strLt_irrefl (a : String) : strLt a a = false :=
  lexLt_irrefl a.data

theorem strLt_trichotomy (a b : String) :
    strLt a b = true ∨ strLt b a = true ∨ a = b := by
  rcases lexLt_total a.data b.data with h | h | h
  · exact Or.inl h
  · exact Or.inr (Or.inl h)
  · exact Or.inr (Or.inr (String.ext h))

theorem strLt_trans {a b c : String} (h1 : strLt a b = true)
    (h2 : strLt b c = true) : strLt a c = true :=
  lexLt_trans h1 h2

theorem strLt_of_strLe_ne {a b : String} (h : strLe a b = true) (hne : a ≠ b) :
    strLt a b = true := by
  simp only [strLe, Bool.or_eq_true, decide_eq_true_eq] at h
  rcases h with h | h
  · exact h
  · exact absurd h hne

theorem not_strLt_of_strLe {a b : String} (hle : strLe b a = true) :
    ¬ strLt a b = true := by
  intro hlt
  simp only [strLe, Bool.or_eq_true, decide_eq_true_eq] at hle
  rcases hle with h | h
  · exact strLt_asymm hlt h
  · rw [h] at hlt
    rw [strLt_irrefl] at hlt
    exact absurd hlt (by simp)

instance : IsTotal String (fun a b => strLe a b = true) := by
  refine ⟨fun a b => ?_⟩
  rcases strLt_trichotomy a b with h | h | h
  · exact Or.inl (by simp [strLe, h])
  · exact Or.inr (by simp [strLe, h])
  · exact Or.inl (by simp [strLe, h])

instance : IsTrans String (fun a b => strLe a b = true) := by
  refine ⟨fun a b c h1 h2 => ?_⟩
  simp only [strLe, Bool.or_eq_true, decide_eq_true_eq] at h1 h2 ⊢
  rcases h1 with h1 | h1
  · rcases h2 with h2 | h2
    · exact Or.inl (strLt_trans h1 h2)
    · exact Or.inl (h2 ▸ h1)
  · rcases h2 with h2 | h2
    · exact Or.inl (h1 ▸ h2)
    · exact Or.inr (h1.trans h2)

instance : IsAntisymm String (fun a b => strLe a b = true) := by
  refine ⟨fun a b h1 h2 => ?_⟩
  simp only [strLe, Bool.or_eq_true, decide_eq_true_eq] at h1 h2
  rcases h1 with h1 | h1
  · rcases h2 with h2 | h2
    · exact (strLt_asymm h1 h2).elim
    · exact h2.symm
  · exact h1

/-! ### The slot universe -/

theorem mem_sortStrings (l : List String) (a : String) :
    a ∈ sortStrings l ↔ a ∈ l :=
  (List.perm_insertionSort _ l).mem_iff

theorem sortStrings_sorted (l : List String) :
    List.Sorted (fun a b : String => strLe a b = true) (sortStrings l) :=
  List.sorted_insertionSort _ l

theorem sortStrings_nodup {l : List String} (h : l.Nodup) :
    (sortStrings l).Nodup :=
  ((List.perm_insertionSort _ l).nodup_iff).mpr h

theorem slotsOfEnum_nodup (enum : List String) : (slotsOfEnum enum).Nodup :=
  sortStrings_nodup (List.nodup_dedup enum)

theorem mem_slotsOfEnum (enum : List String) (a : String) :
    a ∈ slotsOfEnum enum ↔ a ∈ enum := by
  rw [slotsOfEnum, mem_sortStrings, List.mem_dedup]

theorem slotsOfEnum_perm_eq {l1 l2 : List String} (h : List.Perm l1 l2) :
    slotsOfEnum l1 = slotsOfEnum l2 := by
  refine List.eq_of_perm_of_sorted ?_ (sortStrings_sorted _) (sortStrings_sorted _)
  have p1 : List.Perm (sortStrings l1.dedup) l1.dedup := List.perm_insertionSort _ _
  have p2 : List.Perm l1.dedup l2.dedup := h.dedup
  have p3 : List.Perm l2.dedup (sortStrings l2.dedup) :=
    (List.perm_insertionSort _ _).symm
  exact (p1.trans p2).trans p3

theorem slotsOf_nodup (rows : List Row) : (slotsOf rows).Nodup :=
  slotsOfEnum_nodup _

theorem slotsOf_sorted (rows : List Row) :
    List.Sorted (fun a b : String => strLe a b = true) (slotsOf rows) :=
  sortStrings_sorted _

/-! ### Normalization facts -/

theorem lastRowFor_mem {rows : List Row} {c : String} {r : Row}
    (h : lastRowFor rows c = some r) : r ∈ rows ∧ pdStr r.Course = c := by
  have h1 := List.mem_of_find?_eq_some h
  have h2 := List.find?_some h
  exact ⟨(List.mem_reverse).mp h1, by simpa using h2⟩

theorem lastRowFor_isSome {rows : List Row} {c : String}
    (h : c ∈ coursesOf rows) : ∃ r, lastRowFor rows c = some r := by
  rcases List.mem_map.mp h with ⟨r, hr, hrc⟩
  cases hfind : lastRowFor rows c with
  | some r' => exact ⟨r', rfl⟩
  | none =>
    exfalso
    have hnone := List.find?_eq_none.mp hfind r (List.mem_reverse.mpr hr)
    simp [hrc] at hnone

theorem preferencesOf_ne_nil {rows : List Row} {c : String}
    (h : c ∈ coursesOf rows) : preferencesOf rows c ≠ [] := by
  rcases lastRowFor_isSome h with ⟨r, hr⟩
  simp only [preferencesOf, hr]
  by_cases hp : splitPrefs r.PreferredSlots = [] <;> simp [hp]

theorem preferencesOf_subset_slots {rows : List Row} {c s : String}
    (hc : c ∈ coursesOf rows) (hs : s ∈ preferencesOf rows c) :
    s ∈ slotsOf rows := by
  rcases lastRowFor_isSome hc with ⟨r, hr⟩
  rw [slotsOf, mem_slotsOfEnum, allSlotsList]
  simp only [preferencesOf, hr] at hs
  by_cases hp : splitPrefs r.PreferredSlots = []
  · rw [if_pos hp] at hs
    have hsu : s = "Unassigned" := by simpa using hs
    subst hsu
    have hnf : needsFallback rows c = true := by
      simp only [needsFallback, hr]
      simpa using hp
    have hany : (coursesOf rows).any (needsFallback rows) = true :=
      List.any_eq_true.mpr ⟨c, hc, hnf⟩
    simp [hany]
  · rw [if_neg hp] at hs
    exact List.mem_append_left _
      (List.mem_flatMap.mpr ⟨r, (lastRowFor_mem hr).1, hs⟩)

/-! ### Dictionary and allocator facts -/

theorem findEntry_key {vm : VarDict} {k : String × String}
    {p : (String × String) × Nat} (h : findEntry vm k = some p) :
    p.1 = k ∧ p ∈ vm := by
  have h1 := List.find?_some h
  have h2 := List.mem_of_find?_eq_some h
  exact ⟨by simpa using h1, h2⟩

theorem mem_dictUpdate {d : VarDict} {k : String × String} {v : Nat}
    {p : (String × String) × Nat} (h : p ∈ dictUpdate d k v) :
    p ∈ d ∨ p.2 = v := by
  by_cases hany : d.any (fun q => decide (q.1 = k)) = true
  · rw [dictUpdate, if_pos hany] at h
    rcases List.mem_map.mp h with ⟨q, hq, hfq⟩
    by_cases hqk : q.1 = k
    · right
      rw [if_pos hqk] at hfq
      rw [← hfq]
    · left
      rw [if_neg hqk] at hfq
      rwa [← hfq]
  · rw [dictUpdate, if_neg hany] at h
    rcases List.mem_append.mp h with hq | hq
    · exact Or.inl hq
    · right
      have : p = (k, v) := by simpa using hq
      rw [this]

theorem mem_keys_dictUpdate {d : VarDict} {k : String × String} {v : Nat}
    {a : String × String} :
    a ∈ (dictUpdate d k v).map Prod.fst ↔ a ∈ d.map Prod.fst ∨ a = k := by
  by_cases hany : d.any (fun q => decide (q.1 = k)) = true
  · rw [dictUpdate, if_pos hany]
    have hmaps : (d.map (fun p => if p.1 = k then (k, v) else p)).map Prod.fst
        = d.map Prod.fst := by
      rw [List.map_map]
      refine List.map_congr_left ?_
      intro q _
      by_cases hq : q.1 = k
      · simp [hq]
      · simp [hq]
    rw [hmaps]
    constructor
    · exact fun h => Or.inl h
    · rintro (h | rfl)
      · exact h
      · rcases List.any_eq_true.mp hany with ⟨q, hq, hqk⟩
        have hq1 : q.1 = a := of_decide_eq_true hqk
        exact hq1 ▸ List.mem_map.mpr ⟨q, hq, rfl⟩
  · rw [dictUpdate, if_neg hany]
    simp

theorem mem_keys_allocSlots {c : String} {slots : List String}
    {d : VarDict} {n : Nat} {a : String × String} :
    a ∈ (allocSlots c slots (d, n)).1.map Prod.fst ↔
      a ∈ d.map Prod.fst ∨ ∃ s ∈ slots, a = (c, s) := by
  induction slots generalizing d n with
  | nil => simp [allocSlots]
  | cons s rest ih =>
    simp only [allocSlots]
    rw [ih, mem_keys_dictUpdate]
    simp only [List.mem_cons]
    constructor
    · rintro ((h | h) | ⟨s', hs', h⟩)
      · exact Or.inl h
      · exact Or.inr ⟨s, Or.inl rfl, h⟩
      · exact Or.inr ⟨s', Or.inr hs', h⟩
    · rintro (h | ⟨s', hs1 | hs2, h⟩)
      · exact Or.inl (Or.inl h)
      · subst hs1
        exact Or.inl (Or.inr h)
      · exact Or.inr ⟨s', hs2, h⟩

theorem mem_keys_allocAll {slots : List String} {courses : List String}
    {d : VarDict} {n : Nat} {a : String × String} :
    a ∈ (allocAll slots courses (d, n)).1.map Prod.fst ↔
      a ∈ d.map Prod.fst ∨ ∃ c ∈ courses, ∃ s ∈ slots, a = (c, s) := by
  induction courses generalizing d n with
  | nil => simp [allocAll]
  | cons c cs ih =>
    simp only [allocAll]
    have hpair : allocSlots c slots (d, n) =
        ((allocSlots c slots (d, n)).1, (allocSlots c slots (d, n)).2) := rfl
    rw [hpair, ih, mem_keys_allocSlots]
    simp only [List.mem_cons]
    constructor
    · rintro ((h | ⟨s, hs, h⟩) | ⟨c', hc', s, hs, h⟩)
      · exact Or.inl h
      · exact Or.inr ⟨c, Or.inl rfl, s, hs, h⟩
      · exact Or.inr ⟨c', Or.inr hc', s, hs, h⟩
    · rintro (h | ⟨c', hc1 | hc2, s, hs, h⟩)
      · exact Or.inl (Or.inl h)
      · subst hc1
        exact Or.inl (Or.inr ⟨s, hs, h⟩)
      · exact Or.inr ⟨c', hc2, s, hs, h⟩

theorem varMap_hasKey {courses slots : List String} {c s : String}
    (hc : c ∈ courses) (hs : s ∈ slots) :
    ∃ v, ((c, s), v) ∈ varMapOf courses slots := by
  have hk : ((c, s) : String × String) ∈ (varMapOf courses slots).map Prod.fst := by
    rw [varMapOf, mem_keys_allocAll]
    exact Or.inr ⟨c, hc, s, hs, rfl⟩
  rcases List.mem_map.mp hk with ⟨p, hp, hfp⟩
  exact ⟨p.2, by rwa [show ((c, s), p.2) = p from Prod.ext hfp.symm rfl]⟩

theorem allocSlots_counter (c : String) (slots : List String) (d : VarDict) (n : Nat) :
    (allocSlots c slots (d, n)).2 = n + slots.length := by
  induction slots generalizing d n with
  | nil => simp [allocSlots]
  | cons s rest ih =>
    simp only [allocSlots]
    rw [ih]
    simp only [List.length_cons]
    omega

theorem vals_allocSlots {c : String} {slots : List String} {d : VarDict} {n : Nat}
    (hd : ∀ p ∈ d, 1 ≤ p.2) (hn : 1 ≤ n) :
    ∀ p ∈ (allocSlots c slots (d, n)).1, 1 ≤ p.2 := by
  induction slots generalizing d n with
  | nil => simpa [allocSlots] using hd
  | cons s rest ih =>
    rw [allocSlots]
    refine ih ?_ (Nat.le_succ_of_le hn)
    intro p hp
    rcases mem_dictUpdate hp with h | h
    · exact hd p h
    · rw [h]
      exact hn

theorem vals_varMap {courses slots : List String} :
    ∀ p ∈ varMapOf courses slots, 1 ≤ p.2 := by
  rw [varMapOf]
  suffices h : ∀ (cs : List String) (d : VarDict) (n : Nat),
      (∀ p ∈ d, 1 ≤ p.2) → 1 ≤ n → ∀ p ∈ (allocAll slots cs (d, n)).1, 1 ≤ p.2 by
    exact h courses [] 1 (by simp) le_rfl
  intro cs
  induction cs with
  | nil => intro d n hd _; simpa [allocAll] using hd
  | cons c cs' ih =>
    intro d n hd hn
    rw [allocAll]
    have hpair : allocSlots c slots (d, n) =
        ((allocSlots c slots (d, n)).1, (allocSlots c slots (d, n)).2) := rfl
    rw [hpair]
    refine ih _ _ (vals_allocSlots hd hn) ?_
    have hcnt := allocSlots_counter c slots d n
    omega

theorem lookupVar_pos {courses slots : List String} {c s : String}
    (hc : c ∈ courses) (hs : s ∈ slots) :
    1 ≤ lookupVar (varMapOf courses slots) c s := by
  obtain ⟨v, hv⟩ := varMap_hasKey hc hs
  cases hfe : findEntry (varMapOf courses slots) (c, s) with
  | none =>
    exfalso
    have hn := List.find?_eq_none.mp hfe ((c, s), v) hv
    simp at hn
  | some p =>
    rw [lookupVar, hfe]
    exact vals_varMap p (findEntry_key hfe).2

theorem findEntry_isSome {courses slots : List String} {c s : String}
    (hc : c ∈ courses) (hs : s ∈ slots) :
    (findEntry (varMapOf courses slots) (c, s)).isSome = true := by
  obtain ⟨v, hv⟩ := varMap_hasKey hc hs
  cases hfe : findEntry (varMapOf courses slots) (c, s) with
  | none =>
    exfalso
    have hn := List.find?_eq_none.mp hfe ((c, s), v) hv
    simp at hn
  | some p => rfl

theorem dictUpdate_fresh {d : VarDict} {k : String × String} {v : Nat}
    (h : k ∉ d.map Prod.fst) : dictUpdate d k v = d ++ [(k, v)] := by
  rw [dictUpdate, if_neg]
  intro hany
  rcases List.any_eq_true.mp hany with ⟨q, hq, hqk⟩
  have hq1 : q.1 = k := of_decide_eq_true hqk
  exact h (hq1 ▸ List.mem_map.mpr ⟨q, hq, rfl⟩)

theorem allocSlots_fresh {c : String} {slots : List String} {d : VarDict} {n : Nat}
    (hfresh : ∀ s ∈ slots, ((c, s) : String × String) ∉ d.map Prod.fst)
    (hnd : slots.Nodup) :
    allocSlots c slots (d, n) = (d ++ blockFor c slots n, n + slots.length) := by
  induction slots generalizing d n with
  | nil => simp [allocSlots, blockFor]
  | cons s rest ih =>
    simp only [allocSlots]
    have hupd : dictUpdate d (c, s) n = d ++ [((c, s), n)] :=
      dictUpdate_fresh (hfresh s (List.mem_cons_self s rest))
    rw [hupd]
    have hfresh' : ∀ s' ∈ rest,
        ((c, s') : String × String) ∉ (d ++ [((c, s), n)]).map Prod.fst := by
      intro s' hs'
      rw [List.map_append]
      intro hmem
      rcases List.mem_append.mp hmem with h1 | h1
      · exact hfresh s' (List.mem_cons_of_mem s hs') h1
      · have heq : ((c, s') : String × String) = (c, s) := by simpa using h1
        have hss : s' = s := ((Prod.mk.injEq _ _ _ _).mp heq).2
        exact (List.nodup_cons.mp hnd).1 (hss ▸ hs')
    rw [ih hfresh' (List.nodup_cons.mp hnd).2]
    have hblock : blockFor c (s :: rest) n = ((c, s), n) :: blockFor c rest (n + 1) := by
      rw [blockFor, blockFor, List.length_cons, List.range'_succ]
      rfl
    rw [hblock]
    simp only [Prod.mk.injEq]
    constructor
    · simp [List.append_assoc]
    · simp only [List.length_cons]
      omega

theorem allocAll_spec {slots : List String} {courses : List String} {d : VarDict}
    {n : Nat} (hnc : courses.Nodup) (hns : slots.Nodup)
    (hfresh : ∀ c ∈ courses, ∀ s : String,
      ((c, s) : String × String) ∉ d.map Prod.fst) :
    allocAll slots courses (d, n)
      = (d ++ vmSpecFrom slots courses n, n + courses.length * slots.length) := by
  induction courses generalizing d n with
  | nil => simp [allocAll, vmSpecFrom]
  | cons c cs ih =>
    simp only [allocAll]
    rw [allocSlots_fresh (fun s _ => hfresh c (List.mem_cons_self c cs) s) hns]
    have hfresh' : ∀ c' ∈ cs, ∀ s : String,
        ((c', s) : String × String) ∉ (d ++ blockFor c slots n).map Prod.fst := by
      intro c' hc' s
      rw [List.map_append]
      intro hmem
      rcases List.mem_append.mp hmem with h1 | h1
      · exact hfresh c' (List.mem_cons_of_mem c hc') s h1
      · rcases List.mem_map.mp h1 with ⟨p, hp, hfp⟩
        rcases List.mem_map.mp hp with ⟨q, _, hque⟩
        have hp1 : p.1 = (c, q.1) := by rw [← hque]
        rw [hp1] at hfp
        have hcc : c = c' := ((Prod.mk.injEq _ _ _ _).mp hfp).1
        exact (List.nodup_cons.mp hnc).1 (hcc ▸ hc')
    rw [ih (List.nodup_cons.mp hnc).2 hfresh']
    simp only [vmSpecFrom, Prod.mk.injEq]
    constructor
    · simp [List.append_assoc]
    · simp only [List.length_cons]
      rw [Nat.succ_mul]
      omega

theorem varMapOf_eq_spec {courses slots : List String}
    (hnc : courses.Nodup) (hns : slots.Nodup) :
    varMapOf courses slots = vmSpecFrom slots courses 1 := by
  rw [varMapOf, allocAll_spec hnc hns (by simp)]
  simp

theorem vmSpecFrom_eq_zip (slots : List String) (cs : List String) (n : Nat) :
    vmSpecFrom slots cs n
      = (cs.flatMap (fun c => slots.map (fun s => (c, s)))).zip
          (List.range' n (cs.length * slots.length)) := by
  induction cs generalizing n with
  | nil => simp [vmSpecFrom]
  | cons c cs' ih =>
    rw [vmSpecFrom, ih, List.flatMap_cons]
    have hsplit : List.range' n ((c :: cs').length * slots.length)
        = List.range' n slots.length
            ++ List.range' (n + slots.length) (cs'.length * slots.length) := by
      rw [List.length_cons, Nat.succ_mul, ← List.range'_append, one_mul]
    rw [hsplit, List.zip_append (by simp)]
    congr 1
    rw [blockFor, List.zip_map_left]
    refine List.map_congr_left ?_
    intro q _
    rfl

theorem length_prodList (cs slots : List String) :
    (cs.flatMap (fun c => slots.map (fun s => (c, s)))).length
      = cs.length * slots.length := by
  induction cs with
  | nil => simp
  | cons c cs' ih =>
    rw [List.flatMap_cons, List.length_append, List.length_map, ih,
      List.length_cons, Nat.succ_mul]
    omega

theorem vmSpec_keys (slots cs : List String) (n : Nat) :
    (vmSpecFrom slots cs n).map Prod.fst
      = cs.flatMap (fun c => slots.map (fun s => (c, s))) := by
  rw [vmSpecFrom_eq_zip]
  exact List.map_fst_zip _ _ (by rw [length_prodList, List.length_range'])

theorem prodList_nodup {cs slots : List String} (hnc : cs.Nodup) (hns : slots.Nodup) :
    (cs.flatMap (fun c => slots.map (fun s => (c, s)))).Nodup := by
  induction cs with
  | nil => simp
  | cons c cs' ih =>
    rw [List.flatMap_cons, List.nodup_append]
    refine ⟨?_, ih (List.nodup_cons.mp hnc).2, ?_⟩
    · refine List.Nodup.map ?_ hns
      intro a b hab
      exact ((Prod.mk.injEq _ _ _ _).mp hab).2
    · intro p hp1 hp2
      rcases List.mem_map.mp hp1 with ⟨s, _, hps⟩
      rcases List.mem_flatMap.mp hp2 with ⟨c', hc', hp2'⟩
      rcases List.mem_map.mp hp2' with ⟨s', _, heq⟩
      rw [← hps] at heq
      have hcc : c' = c := ((Prod.mk.injEq _ _ _ _).mp heq).1
      exact (List.nodup_cons.mp hnc).1 (hcc ▸ hc')

theorem varMap_keys_nodup {courses slots : List String}
    (hnc : courses.Nodup) (hns : slots.Nodup) :
    ((varMapOf courses slots).map Prod.fst).Nodup := by
  rw [varMapOf_eq_spec hnc hns, vmSpec_keys]
  exact prodList_nodup hnc hns

theorem findEntry_of_mem {vm : VarDict} (hk : (vm.map Prod.fst).Nodup)
    {k : String × String} {v : Nat} (h : (k, v) ∈ vm) :
    findEntry vm k = some (k, v) := by
  induction vm with
  | nil => simp at h
  | cons p rest ih =>
    simp only [List.map_cons, List.nodup_cons] at hk
    by_cases hpk : p.1 = k
    · rw [findEntry, List.find?_cons_of_pos _ (by simpa using hpk)]
      rcases List.mem_cons.mp h with h1 | h1
      · rw [← h1]
      · exfalso
        have hkrest : k ∈ rest.map Prod.fst := List.mem_map.mpr ⟨(k, v), h1, rfl⟩
        exact hk.1 (hpk ▸ hkrest)
    · rw [findEntry, List.find?_cons_of_neg _ (by simpa using hpk)]
      have h1 : (k, v) ∈ rest := by
        rcases List.mem_cons.mp h with h2 | h2
        · exact absurd (by rw [← h2]) hpk
        · exact h2
      exact ih hk.2 h1

theorem lookupVar_eq_of_mem {vm : VarDict} (hk : (vm.map Prod.fst).Nodup)
    {c s : String} {v : Nat} (h : ((c, s), v) ∈ vm) :
    lookupVar vm c s = v := by
  rw [lookupVar, findEntry_of_mem hk h]

/-! ### Ordered pairs and grouping order -/

theorem mem_ordPairs_total {α : Type} {l : List α} {a b : α}
    (ha : a ∈ l) (hb : b ∈ l) (hab : a ≠ b) :
    (a, b) ∈ ordPairs l ∨ (b, a) ∈ ordPairs l := by
  induction l with
  | nil => simp at ha
  | cons x xs ih =>
    simp only [ordPairs, List.mem_append, List.mem_map]
    rcases List.mem_cons.mp ha with h1 | h1
    · have hbxs : b ∈ xs := by
        rcases List.mem_cons.mp hb with h2 | h2
        · exact absurd (h1.trans h2.symm) hab
        · exact h2
      exact Or.inl (Or.inl ⟨b, hbxs, by rw [h1]⟩)
    · rcases List.mem_cons.mp hb with h2 | h2
      · exact Or.inr (Or.inl ⟨a, h1, by rw [h2]⟩)
      · rcases ih h1 h2 with h | h
        · exact Or.inl (Or.inr h)
        · exact Or.inr (Or.inr h)

theorem count_two_mem_ordPairs {α : Type} [DecidableEq α] {l : List α} {a : α}
    (h : 2 ≤ l.count a) : (a, a) ∈ ordPairs l := by
  induction l with
  | nil => simp [List.count_nil] at h
  | cons x xs ih =>
    simp only [ordPairs, List.mem_append, List.mem_map]
    by_cases hxa : x = a
    · subst hxa
      have h1 : 0 < xs.count x := by
        rw [List.count_cons_self] at h
        omega
      exact Or.inl ⟨x, List.count_pos_iff.mp h1, rfl⟩
    · have h1 : 2 ≤ xs.count a := by
        rwa [List.count_cons_of_ne (fun heq => hxa heq.symm)] at h
      exact Or.inr (ih h1)

theorem mem_ordPairs_sorted {l : List String}
    (hs : l.Sorted (fun a b : String => strLe a b = true)) (hnd : l.Nodup)
    (a b : String) :
    (a, b) ∈ ordPairs l ↔ a ∈ l ∧ b ∈ l ∧ strLt a b = true := by
  induction l with
  | nil => simp [ordPairs]
  | cons x xs ih =>
    obtain ⟨hxle, hxs⟩ := List.sorted_cons.mp hs
    obtain ⟨hxn, hxsn⟩ := List.nodup_cons.mp hnd
    simp only [ordPairs, List.mem_append, List.mem_map, List.mem_cons]
    rw [ih hxs hxsn]
    constructor
    · rintro (⟨y, hy, heq⟩ | ⟨h1, h2, h3⟩)
      · obtain ⟨hax, hyb⟩ := (Prod.mk.injEq _ _ _ _).mp heq
        have hbxs : b ∈ xs := hyb ▸ hy
        refine ⟨Or.inl hax.symm, Or.inr hbxs, ?_⟩
        rw [← hax]
        exact strLt_of_strLe_ne (hxle b hbxs) (fun hxb => hxn (hxb ▸ hbxs))
      · exact ⟨Or.inr h1, Or.inr h2, h3⟩
    · rintro ⟨ha1 | ha2, hb1 | hb2, hab⟩
      · rw [ha1, hb1] at hab
        rw [strLt_irrefl] at hab
        exact absurd hab (by simp)
      · exact Or.inl ⟨b, hb2, by rw [ha1]⟩
      · exfalso
        have hle : strLe b a = true := hb1 ▸ hxle a ha2
        exact not_strLt_of_strLe hle hab
      · exact Or.inr ⟨ha2, hb2, hab⟩

theorem mem_ordPairs_filter {α : Type} {p : α → Bool} {l : List α} {a b : α} :
    (a, b) ∈ ordPairs (l.filter p) ↔ (a, b) ∈ ordPairs l ∧ p a = true ∧ p b = true := by
  induction l with
  | nil => simp [ordPairs]
  | cons x xs ih =>
    by_cases hpx : p x = true
    · rw [List.filter_cons_of_pos hpx]
      simp only [ordPairs, List.mem_append, List.mem_map, List.mem_filter]
      rw [ih]
      constructor
      · rintro (⟨y, ⟨hy, hpy⟩, heq⟩ | ⟨h1, h2, h3⟩)
        · obtain ⟨hax, hyb⟩ := (Prod.mk.injEq _ _ _ _).mp heq
          refine ⟨Or.inl ⟨y, hy, heq⟩, ?_, ?_⟩
          · rw [← hax]
            exact hpx
          · rw [← hyb]
            exact hpy
        · exact ⟨Or.inr h1, h2, h3⟩
      · rintro ⟨⟨y, hy, heq⟩ | h1, hpa, hpb⟩
        · obtain ⟨hax, hyb⟩ := (Prod.mk.injEq _ _ _ _).mp heq
          refine Or.inl ⟨y, ⟨hy, ?_⟩, heq⟩
          rw [hyb]
          exact hpb
        · exact Or.inr ⟨h1, hpa, hpb⟩
    · rw [List.filter_cons_of_neg hpx]
      rw [ih]
      simp only [ordPairs, List.mem_append, List.mem_map]
      constructor
      · rintro ⟨h1, h2, h3⟩
        exact ⟨Or.inr h1, h2, h3⟩
      · rintro ⟨⟨y, _, heq⟩ | h1, hpa, hpb⟩
        · obtain ⟨hax, _⟩ := (Prod.mk.injEq _ _ _ _).mp heq
          rw [← hax] at hpa
          exact absurd hpa hpx
        · exact ⟨h1, hpa, hpb⟩

theorem mem_firstSeen_aux (l : List String) (acc : List String) (a : String) :
    a ∈ l.foldl (fun acc x => if x ∈ acc then acc else acc ++ [x]) acc
      ↔ a ∈ acc ∨ a ∈ l := by
  induction l generalizing acc with
  | nil => simp
  | cons x xs ih =>
    rw [List.foldl_cons, ih]
    by_cases hx : x ∈ acc
    · rw [if_pos hx]
      simp only [List.mem_cons]
      constructor
      · rintro (h | h)
        · exact Or.inl h
        · exact Or.inr (Or.inr h)
      · rintro (h | h | h)
        · exact Or.inl h
        · exact Or.inl (h ▸ hx)
        · exact Or.inr h
    · rw [if_neg hx]
      simp only [List.mem_append, List.mem_cons, List.not_mem_nil, or_false]
      tauto

theorem mem_firstSeen {l : List String} {a : String} :
    a ∈ firstSeen l ↔ a ∈ l := by
  rw [firstSeen, mem_firstSeen_aux]
  simp

/-! ### Clause membership and model consequences -/

theorem cnfOf_eq (rows : List Row) :
    cnfOf rows = coverageClauses (coursesOf rows) (preferencesOf rows)
        (varMapOf (coursesOf rows) (slotsOf rows))
      ++ amoClauses (coursesOf rows) (slotsOf rows)
        (varMapOf (coursesOf rows) (slotsOf rows))
      ++ clashClauses (coursesOf rows) (slotsOf rows)
        (varMapOf (coursesOf rows) (slotsOf rows)) (facultyMapOf rows) := rfl

theorem coverage_clause_mem {courses : List String} {prefs : String → List String}
    {vm : VarDict} {c : String} (hc : c ∈ courses)
    (hne : ((prefs c).filter (fun s => (findEntry vm (c, s)).isSome)).map
      (fun s => posLit (lookupVar vm c s)) ≠ []) :
    ((prefs c).filter (fun s => (findEntry vm (c, s)).isSome)).map
      (fun s => posLit (lookupVar vm c s)) ∈ coverageClauses courses prefs vm := by
  rw [coverageClauses]
  refine List.mem_filter.mpr ⟨List.mem_map.mpr ⟨c, hc, rfl⟩, ?_⟩
  simpa using hne

theorem amo_mem {courses slots : List String} {vm : VarDict} {c : String}
    {q : String × String} (hc : c ∈ courses) (hq : q ∈ ordPairs slots) :
    [negLit (lookupVar vm c q.1), negLit (lookupVar vm c q.2)]
      ∈ amoClauses courses slots vm := by
  rw [amoClauses]
  exact List.mem_flatMap.mpr ⟨c, hc, List.mem_map.mpr ⟨q, hq, rfl⟩⟩

theorem clash_mem {courses slots : List String} {vm : VarDict}
    {fm : String → String} {s p : String} {q : String × String}
    (hs : s ∈ slots) (hp : p ∈ firstSeen (courses.map fm))
    (hq : q ∈ ordPairs (courses.filter (fun c => decide (fm c = p)))) :
    [negLit (lookupVar vm q.1 s), negLit (lookupVar vm q.2 s)]
      ∈ clashClauses courses slots vm fm := by
  rw [clashClauses]
  exact List.mem_flatMap.mpr
    ⟨s, hs, List.mem_flatMap.mpr ⟨p, hp, List.mem_map.mpr ⟨q, hq, rfl⟩⟩⟩

theorem twoNeg_clause_false {m : List Bool} {cnf : List (List Int)} {v1 v2 : Nat}
    (hmem : [negLit v1, negLit v2] ∈ cnf) (hsat : satCNF m cnf = true) :
    modelTrue m v1 = false ∨ modelTrue m v2 = false := by
  obtain ⟨lit, hlit, hev⟩ := satCNF_clause hsat hmem
  rcases List.mem_cons.mp hlit with h | h
  · left
    rw [h, evalLit_negLit] at hev
    simpa using hev
  · right
    have hl : lit = negLit v2 := by simpa using h
    rw [hl, evalLit_negLit] at hev
    simpa using hev

theorem model_covers {rows : List Row} {m : List Bool}
    (hsat : satCNF m (cnfOf rows) = true) {c : String} (hc : c ∈ coursesOf rows) :
    ∃ s ∈ preferencesOf rows c,
      modelTrue m (lookupVar (varMapOf (coursesOf rows) (slotsOf rows)) c s) = true := by
  have hsub : ∀ s ∈ preferencesOf rows c, s ∈ slotsOf rows :=
    fun s hs => preferencesOf_subset_slots hc hs
  have hclean : (preferencesOf rows c).filter
      (fun s => (findEntry (varMapOf (coursesOf rows) (slotsOf rows)) (c, s)).isSome)
      = preferencesOf rows c :=
    List.filter_eq_self.mpr (fun s hs => findEntry_isSome hc (hsub s hs))
  have hne : ((preferencesOf rows c).filter
      (fun s => (findEntry (varMapOf (coursesOf rows) (slotsOf rows)) (c, s)).isSome)).map
      (fun s => posLit (lookupVar (varMapOf (coursesOf rows) (slotsOf rows)) c s)) ≠ [] := by
    rw [hclean]
    simpa using preferencesOf_ne_nil hc
  have hmem := coverage_clause_mem hc hne
  have hmem' : ((preferencesOf rows c).filter
      (fun s => (findEntry (varMapOf (coursesOf rows) (slotsOf rows)) (c, s)).isSome)).map
      (fun s => posLit (lookupVar (varMapOf (coursesOf rows) (slotsOf rows)) c s))
      ∈ cnfOf rows := by
    rw [cnfOf_eq]
    exact List.mem_append_left _ (List.mem_append_left _ hmem)
  obtain ⟨lit, hlit, hev⟩ := satCNF_clause hsat hmem'
  rw [hclean] at hlit
  rcases List.mem_map.mp hlit with ⟨s, hs, hlits⟩
  refine ⟨s, hs, ?_⟩
  rw [← evalLit_posLit m _ (lookupVar_pos hc (hsub s hs))]
  rw [hlits]
  exact hev

theorem model_atMostOne {rows : List Row} {m : List Bool}
    (hsat : satCNF m (cnfOf rows) = true) {c : String} (hc : c ∈ coursesOf rows)
    {s1 s2 : String} (hq : (s1, s2) ∈ ordPairs (slotsOf rows)) :
    ¬(modelTrue m (lookupVar (varMapOf (coursesOf rows) (slotsOf rows)) c s1) = true
      ∧ modelTrue m (lookupVar (varMapOf (coursesOf rows) (slotsOf rows)) c s2) = true) := by
  rintro ⟨h1, h2⟩
  have hmem' : [negLit (lookupVar (varMapOf (coursesOf rows) (slotsOf rows)) c s1),
      negLit (lookupVar (varMapOf (coursesOf rows) (slotsOf rows)) c s2)]
      ∈ cnfOf rows := by
    rw [cnfOf_eq]
    exact List.mem_append_left _ (List.mem_append_right _ (amo_mem hc hq))
  rcases twoNeg_clause_false hmem' hsat with h | h
  · rw [h1] at h
    simp at h
  · rw [h2] at h
    simp at h

theorem model_noClash {rows : List Row} {m : List Bool}
    (hsat : satCNF m (cnfOf rows) = true) {c1 c2 s : String}
    (hc1 : c1 ∈ coursesOf rows) (hc2 : c2 ∈ coursesOf rows) (hne : c1 ≠ c2)
    (hf : facultyMapOf rows c1 = facultyMapOf rows c2) (hs : s ∈ slotsOf rows) :
    ¬(modelTrue m (lookupVar (varMapOf (coursesOf rows) (slotsOf rows)) c1 s) = true
      ∧ modelTrue m (lookupVar (varMapOf (coursesOf rows) (slotsOf rows)) c2 s) = true) := by
  rintro ⟨h1, h2⟩
  have hp : facultyMapOf rows c1 ∈ firstSeen ((coursesOf rows).map (facultyMapOf rows)) :=
    mem_firstSeen.mpr (List.mem_map.mpr ⟨c1, hc1, rfl⟩)
  have hd1 : decide (facultyMapOf rows c1 = facultyMapOf rows c1) = true := by simp
  have hd2 : decide (facultyMapOf rows c2 = facultyMapOf rows c1) = true := by
    simp [hf.symm]
  rcases mem_ordPairs_total hc1 hc2 hne with h | h
  · have hq : ((c1, c2) : String × String) ∈ ordPairs ((coursesOf rows).filter
        (fun c => decide (facultyMapOf rows c = facultyMapOf rows c1))) :=
      mem_ordPairs_filter.mpr ⟨h, hd1, hd2⟩
    have hmem' : [negLit (lookupVar (varMapOf (coursesOf rows) (slotsOf rows)) c1 s),
        negLit (lookupVar (varMapOf (coursesOf rows) (slotsOf rows)) c2 s)]
        ∈ cnfOf rows := by
      rw [cnfOf_eq]
      exact List.mem_append_right _ (clash_mem hs hp hq)
    rcases twoNeg_clause_false hmem' hsat with hh | hh
    · rw [h1] at hh
      simp at hh
    · rw [h2] at hh
      simp at hh
  · have hq : ((c2, c1) : String × String) ∈ ordPairs ((coursesOf rows).filter
        (fun c => decide (facultyMapOf rows c = facultyMapOf rows c1))) :=
      mem_ordPairs_filter.mpr ⟨h, hd2, hd1⟩
    have hmem' : [negLit (lookupVar (varMapOf (coursesOf rows) (slotsOf rows)) c2 s),
        negLit (lookupVar (varMapOf (coursesOf rows) (slotsOf rows)) c1 s)]
        ∈ cnfOf rows := by
      rw [cnfOf_eq]
      exact List.mem_append_right _ (clash_mem hs hp hq)
    rcases twoNeg_clause_false hmem' hsat with hh | hh
    · rw [h2] at hh
      simp at hh
    · rw [h1] at hh
      simp at hh

theorem generate_timetable_none_iff (rows : List Row) :
    generate_timetable rows = none ↔ ¬ Satisfiable (numVars rows) (cnfOf rows) := by
  rw [← findModel_eq_none_iff]
  cases hfm : findModel (numVars rows) (cnfOf rows) with
  | some m => simp [generate_timetable, hfm]
  | none => simp [generate_timetable, hfm]

theorem cnf_unsat_of_dup {rows : List Row} (hnd : ¬ (coursesOf rows).Nodup) :
    ¬ Satisfiable (numVars rows) (cnfOf rows) := by
  rintro ⟨m, _, hsat⟩
  obtain ⟨c, hcnt⟩ : ∃ c, 2 ≤ (coursesOf rows).count c := by
    by_contra hno
    push_neg at hno
    refine hnd (List.nodup_iff_count_le_one.mpr (fun a => ?_))
    have := hno a
    omega
  have hc : c ∈ coursesOf rows := List.count_pos_iff.mp (by omega)
  obtain ⟨s, hs, htrue⟩ := model_covers hsat hc
  have hsslot : s ∈ slotsOf rows := preferencesOf_subset_slots hc hs
  have hp : facultyMapOf rows c ∈ firstSeen ((coursesOf rows).map (facultyMapOf rows)) :=
    mem_firstSeen.mpr (List.mem_map.mpr ⟨c, hc, rfl⟩)
  have hq : ((c, c) : String × String) ∈ ordPairs ((coursesOf rows).filter
      (fun x => decide (facultyMapOf rows x = facultyMapOf rows c))) :=
    mem_ordPairs_filter.mpr ⟨count_two_mem_ordPairs hcnt, by simp, by simp⟩
  have hmem' : [negLit (lookupVar (varMapOf (coursesOf rows) (slotsOf rows)) c s),
      negLit (lookupVar (varMapOf (coursesOf rows) (slotsOf rows)) c s)]
      ∈ cnfOf rows := by
    rw [cnfOf_eq]
    exact List.mem_append_right _ (clash_mem hsslot hp hq)
  rcases twoNeg_clause_false hmem' hsat with h | h <;>
    · rw [htrue] at h
      simp at h

/-! ### Decoding the model -/

theorem zip_filterMap_block {VM : VarDict} {fm : String → String} {m : List Bool}
    {c : String} :
    ∀ (sl : List String) (n : Nat),
    (∀ q ∈ sl.zip (List.range' n sl.length), lookupVar VM c q.1 = q.2) →
    (sl.zip (List.range' n sl.length)).filterMap
        (fun q => if modelTrue m q.2 then some (⟨c, fm c, q.1⟩ : OutRow) else none)
      = (sl.filter (fun s => modelTrue m (lookupVar VM c s))).map
          (fun s => (⟨c, fm c, s⟩ : OutRow)) := by
  intro sl
  induction sl with
  | nil => intro n _; simp
  | cons s rest ih =>
    intro n hagree
    rw [List.length_cons, List.range'_succ, List.zip_cons_cons]
    have hhead : lookupVar VM c s = n :=
      hagree (s, n) (by rw [List.length_cons, List.range'_succ, List.zip_cons_cons]; exact List.mem_cons_self _ _)
    have htail : ∀ q ∈ rest.zip (List.range' (n + 1) rest.length),
        lookupVar VM c q.1 = q.2 := by
      intro q hq
      refine hagree q ?_
      rw [List.length_cons, List.range'_succ, List.zip_cons_cons]
      exact List.mem_cons_of_mem _ hq
    rw [List.filterMap_cons]
    by_cases hmt : modelTrue m n = true
    · rw [if_pos hmt]
      rw [List.filter_cons_of_pos (by rw [hhead]; exact hmt)]
      rw [List.map_cons, ih (n + 1) htail]
    · rw [if_neg hmt]
      rw [List.filter_cons_of_neg (by rw [hhead]; exact hmt)]
      exact ih (n + 1) htail

theorem decode_spec_aux {VM : VarDict} {fm : String → String} {m : List Bool}
    (slots : List String) :
    ∀ (cs : List String) (n : Nat),
    (∀ p ∈ vmSpecFrom slots cs n, lookupVar VM p.1.1 p.1.2 = p.2) →
    (vmSpecFrom slots cs n).filterMap
        (fun e => if modelTrue m e.2 then some (⟨e.1.1, fm e.1.1, e.1.2⟩ : OutRow) else none)
      = cs.flatMap (fun c =>
          (slots.filter (fun s => modelTrue m (lookupVar VM c s))).map
            (fun s => (⟨c, fm c, s⟩ : OutRow))) := by
  intro cs
  induction cs with
  | nil => intro n _; simp [vmSpecFrom]
  | cons c cs' ih =>
    intro n hagree
    rw [vmSpecFrom, List.filterMap_append, List.flatMap_cons]
    congr 1
    · rw [blockFor, List.filterMap_map]
      have hblock : ∀ q ∈ slots.zip (List.range' n slots.length),
          lookupVar VM c q.1 = q.2 := by
        intro q hq
        have hmem : ((c, q.1), q.2) ∈ vmSpecFrom slots (c :: cs') n := by
          rw [vmSpecFrom]
          exact List.mem_append_left _
            (List.mem_map.mpr ⟨q, hq, rfl⟩)
        exact hagree ((c, q.1), q.2) hmem
      rw [← zip_filterMap_block slots n hblock]
      rfl
    · refine ih (n + slots.length) ?_
      intro p hp
      refine hagree p ?_
      rw [vmSpecFrom]
      exact List.mem_append_right _ hp

theorem decode_eq_flatMap {rows : List Row} {m : List Bool}
    (hnc : (coursesOf rows).Nodup) :
    decode (varMapOf (coursesOf rows) (slotsOf rows)) (facultyMapOf rows) m
      = (coursesOf rows).flatMap (fun c =>
          ((slotsOf rows).filter (fun s =>
            modelTrue m (lookupVar (varMapOf (coursesOf rows) (slotsOf rows)) c s))).map
            (fun s => (⟨c, facultyMapOf rows c, s⟩ : OutRow))) := by
  have hns := slotsOf_nodup rows
  have hspec := varMapOf_eq_spec hnc hns
  rw [decode, hspec]
  refine decode_spec_aux (slotsOf rows) (coursesOf rows) 1 ?_
  intro p hp
  have hk : ((vmSpecFrom (slotsOf rows) (coursesOf rows) 1).map Prod.fst).Nodup := by
    rw [vmSpec_keys]
    exact prodList_nodup hnc hns
  exact lookupVar_eq_of_mem hk hp

theorem filter_eq_singleton_of_unique {α : Type} {l : List α} {p : α → Bool} {a : α}
    (hnd : l.Nodup) (ha : a ∈ l) (hpa : p a = true)
    (huniq : ∀ b ∈ l, p b = true → b = a) :
    l.filter p = [a] := by
  induction l with
  | nil => simp at ha
  | cons x xs ih =>
    obtain ⟨hxn, hxsn⟩ := List.nodup_cons.mp hnd
    rcases List.mem_cons.mp ha with h1 | h1
    · have hfx : p x = true := by rw [← h1]; exact hpa
      rw [List.filter_cons_of_pos hfx]
      have hnilx : xs.filter p = [] := by
        rw [List.filter_eq_nil_iff]
        intro b hb hpb
        have hba : b = a := huniq b (List.mem_cons_of_mem x hb) hpb
        rw [hba, h1] at hb
        exact hxn hb
      rw [hnilx, h1]
    · have hfx : ¬ p x = true := by
        intro hpp
        have hxa : x = a := huniq x (List.mem_cons_self x xs) hpp
        rw [hxa] at hxn
        exact hxn h1
      rw [List.filter_cons_of_neg hfx]
      exact ih hxsn h1 (fun b hb hpb => huniq b (List.mem_cons_of_mem x hb) hpb)

theorem flatMap_filter_course {courses : List String} (hnd : courses.Nodup)
    (g : String → List OutRow) (hcourse : ∀ c, ∀ r ∈ g c, r.Course = c)
    {c0 : String} (hc0 : c0 ∈ courses) :
    (courses.flatMap g).filter (fun r => decide (r.Course = c0)) = g c0 := by
  induction courses with
  | nil => simp at hc0
  | cons c cs ih =>
    obtain ⟨hcn, hcsn⟩ := List.nodup_cons.mp hnd
    rw [List.flatMap_cons, List.filter_append]
    by_cases hcc : c = c0
    · subst hcc
      have h1 : (g c).filter (fun r => decide (r.Course = c)) = g c :=
        List.filter_eq_self.mpr (fun r hr => by simp [hcourse c r hr])
      have h2 : (cs.flatMap g).filter (fun r => decide (r.Course = c)) = [] := by
        rw [List.filter_eq_nil_iff]
        intro r hr hpr
        rcases List.mem_flatMap.mp hr with ⟨c', hc', hrg⟩
        have hrc : r.Course = c' := hcourse c' r hrg
        have hcc' : c' = c := by
          have := of_decide_eq_true hpr
          rw [hrc] at this
          exact this
        exact hcn (hcc' ▸ hc')
      rw [h1, h2, List.append_nil]
    · have h1 : (g c).filter (fun r => decide (r.Course = c0)) = [] := by
        rw [List.filter_eq_nil_iff]
        intro r hr hpr
        have hrc : r.Course = c := hcourse c r hr
        have := of_decide_eq_true hpr
        rw [hrc] at this
        exact hcc this
      have hc0cs : c0 ∈ cs := by
        rcases List.mem_cons.mp hc0 with h | h
        · exact absurd h.symm hcc
        · exact h
      rw [h1, List.nil_append]
      exact ih hcsn hc0cs

theorem generate_timetable_some {rows : List Row} {out : List OutRow}
    (h : generate_timetable rows = some out) :
    ∃ m, findModel (numVars rows) (cnfOf rows) = some m
      ∧ satCNF m (cnfOf rows) = true
      ∧ out = decode (varMapOf (coursesOf rows) (slotsOf rows)) (facultyMapOf rows) m := by
  rw [generate_timetable] at h
  cases hfm : findModel (numVars rows) (cnfOf rows) with
  | some m =>
    rw [hfm] at h
    refine ⟨m, rfl, (findModel_some hfm).2, ?_⟩
    have := Option.some.injEq _ _ ▸ h
    simpa using this.symm
  | none =>
    rw [hfm] at h
    simp at h

theorem sat_output_props {rows : List Row} {m : List Bool}
    (hnc : (coursesOf rows).Nodup) (hsat : satCNF m (cnfOf rows) = true) :
    (∀ c ∈ coursesOf rows,
      ((decode (varMapOf (coursesOf rows) (slotsOf rows)) (facultyMapOf rows) m).filter
        (fun r => decide (r.Course = c))).length = 1)
    ∧ (∀ r ∈ decode (varMapOf (coursesOf rows) (slotsOf rows)) (facultyMapOf rows) m,
        r.Course ∈ coursesOf rows ∧ r.Faculty = facultyMapOf rows r.Course
          ∧ r.Slot ∈ preferencesOf rows r.Course)
    ∧ (∀ r1 ∈ decode (varMapOf (coursesOf rows) (slotsOf rows)) (facultyMapOf rows) m,
        ∀ r2 ∈ decode (varMapOf (coursesOf rows) (slotsOf rows)) (facultyMapOf rows) m,
        r1.Course ≠ r2.Course → r1.Faculty = r2.Faculty → r1.Slot ≠ r2.Slot) := by
  have hns := slotsOf_nodup rows
  have hsorted := slotsOf_sorted rows
  have huniq : ∀ c ∈ coursesOf rows, ∀ s1 ∈ slotsOf rows, ∀ s2 ∈ slotsOf rows,
      modelTrue m (lookupVar (varMapOf (coursesOf rows) (slotsOf rows)) c s1) = true →
      modelTrue m (lookupVar (varMapOf (coursesOf rows) (slotsOf rows)) c s2) = true →
      s1 = s2 := by
    intro c hc s1 hs1 s2 hs2 h1 h2
    rcases strLt_trichotomy s1 s2 with hlt | hgt | heq
    · exact absurd ⟨h1, h2⟩ (model_atMostOne hsat hc
        ((mem_ordPairs_sorted hsorted hns s1 s2).mpr ⟨hs1, hs2, hlt⟩))
    · exact absurd ⟨h2, h1⟩ (model_atMostOne hsat hc
        ((mem_ordPairs_sorted hsorted hns s2 s1).mpr ⟨hs2, hs1, hgt⟩))
    · exact heq
  have hsingle : ∀ c ∈ coursesOf rows, ∃ s0,
      (slotsOf rows).filter (fun s =>
        modelTrue m (lookupVar (varMapOf (coursesOf rows) (slotsOf rows)) c s)) = [s0]
      ∧ s0 ∈ preferencesOf rows c := by
    intro c hc
    obtain ⟨s0, hs0p, hs0t⟩ := model_covers hsat hc
    have hs0s : s0 ∈ slotsOf rows := preferencesOf_subset_slots hc hs0p
    refine ⟨s0, filter_eq_singleton_of_unique hns hs0s hs0t ?_, hs0p⟩
    intro b hb hpb
    exact huniq c hc b hb s0 hs0s hpb hs0t
  rw [decode_eq_flatMap hnc]
  have hcourse : ∀ c, ∀ r ∈ ((slotsOf rows).filter (fun s =>
      modelTrue m (lookupVar (varMapOf (coursesOf rows) (slotsOf rows)) c s))).map
      (fun s => (⟨c, facultyMapOf rows c, s⟩ : OutRow)), r.Course = c := by
    intro c r hr
    rcases List.mem_map.mp hr with ⟨s, _, hrs⟩
    rw [← hrs]
  refine ⟨?_, ?_, ?_⟩
  · intro c0 hc0
    rw [flatMap_filter_course hnc _ hcourse hc0]
    obtain ⟨s0, hT, _⟩ := hsingle c0 hc0
    rw [hT]
    rfl
  · intro r hr
    rcases List.mem_flatMap.mp hr with ⟨c, hc, hrg⟩
    rcases List.mem_map.mp hrg with ⟨s, hsT, hrs⟩
    obtain ⟨s0, hT, hs0p⟩ := hsingle c hc
    rw [hT] at hsT
    have hss0 : s = s0 := by simpa using hsT
    rw [← hrs, hss0]
    exact ⟨hc, rfl, hs0p⟩
  · intro r1 hr1 r2 hr2 hcne hfeq
    rcases List.mem_flatMap.mp hr1 with ⟨c1, hc1, hrg1⟩
    rcases List.mem_map.mp hrg1 with ⟨s1, hsT1, hrs1⟩
    rcases List.mem_flatMap.mp hr2 with ⟨c2, hc2, hrg2⟩
    rcases List.mem_map.mp hrg2 with ⟨s2, hsT2, hrs2⟩
    rw [← hrs1, ← hrs2]
    intro hslots
    have hss : s1 = s2 := hslots
    rw [← hrs1, ← hrs2] at hcne hfeq
    have hc12 : c1 ≠ c2 := hcne
    have hf12 : facultyMapOf rows c1 = facultyMapOf rows c2 := hfeq
    obtain ⟨hs1s, ht1⟩ := List.mem_filter.mp hsT1
    obtain ⟨hs2s, ht2⟩ := List.mem_filter.mp hsT2
    refine model_noClash hsat hc1 hc2 hc12 hf12 hs1s ⟨ht1, ?_⟩
    rw [hss]
    exact ht2

theorem find?_key_unique {α : Type} {key : α → String} {l : List α}
    (hnd : (l.map key).Nodup) {r : α} (hr : r ∈ l) :
    l.find? (fun x => decide (key x = key r)) = some r := by
  induction l with
  | nil => simp at hr
  | cons x xs ih =>
    simp only [List.map_cons, List.nodup_cons] at hnd
    by_cases hx : key x = key r
    · rw [List.find?_cons_of_pos _ (by simpa using hx)]
      rcases List.mem_cons.mp hr with h | h
      · rw [h]
      · exact absurd (hx ▸ List.mem_map.mpr ⟨r, h, rfl⟩) hnd.1
    · rw [List.find?_cons_of_neg _ (by simpa using hx)]
      have hrxs : r ∈ xs := by
        rcases List.mem_cons.mp hr with h | h
        · exact absurd (by rw [h]) hx
        · exact h
      exact ih hnd.2 hrxs

theorem lastRowFor_nodup {rows : List Row} (hnc : (coursesOf rows).Nodup)
    {r : Row} (hr : r ∈ rows) : lastRowFor rows (pdStr r.Course) = some r := by
  rw [lastRowFor]
  refine find?_key_unique ?_ (List.mem_reverse.mpr hr)
  rw [List.map_reverse]
  exact (List.nodup_reverse).mpr hnc

theorem splitPrefs_some (raw : String) :
    splitPrefs (some raw)
      = ((pySplitComma (pyStrip raw)).map pyStrip).filter (fun t => t ≠ "") := by
  simp only [splitPrefs]
  by_cases h : pyStrip raw = ""
  · rw [if_pos h, h]
    rfl
  · rw [if_neg h]

theorem unassigned_mem_slots {rows : List Row} {r : Row} (hr : r ∈ rows)
    (hempty : splitPrefs r.PreferredSlots = [])
    (hlast : lastRowFor rows (pdStr r.Course) = some r) :
    "Unassigned" ∈ slotsOf rows := by
  rw [slotsOf, mem_slotsOfEnum, allSlotsList]
  have hnf : needsFallback rows (pdStr r.Course) = true := by
    simp only [needsFallback, hlast]
    simpa using hempty
  have hc : pdStr r.Course ∈ coursesOf rows := List.mem_map.mpr ⟨r, hr, rfl⟩
  have hany : (coursesOf rows).any (needsFallback rows) = true :=
    List.any_eq_true.mpr ⟨pdStr r.Course, hc, hnf⟩
  simp [hany]

/-! ### Clause-family characterizations -/

theorem mem_ordPairs_iff_get? {α : Type} {l : List α} {a b : α} :
    (a, b) ∈ ordPairs l
      ↔ ∃ i j : Nat, i < j ∧ l.get? i = some a ∧ l.get? j = some b := by
  induction l with
  | nil => simp [ordPairs]
  | cons x xs ih =>
    simp only [ordPairs, List.mem_append, List.mem_map]
    constructor
    · rintro (⟨y, hy, heq⟩ | h)
      · obtain ⟨hax, hyb⟩ := (Prod.mk.injEq _ _ _ _).mp heq
        obtain ⟨k, hk⟩ := List.mem_iff_get?.mp (hyb ▸ hy)
        exact ⟨0, k + 1, Nat.succ_pos k, by simp [hax], by simpa using hk⟩
      · obtain ⟨i, j, hij, hi, hj⟩ := ih.mp h
        exact ⟨i + 1, j + 1, by omega, by simpa using hi, by simpa using hj⟩
    · rintro ⟨i, j, hij, hi, hj⟩
      cases i with
      | zero =>
        have hax : x = a := by simpa using hi
        cases j with
        | zero => omega
        | succ j' =>
          have hj' : xs.get? j' = some b := by simpa using hj
          exact Or.inl ⟨b, List.mem_iff_get?.mpr ⟨j', hj'⟩, by rw [hax]⟩
      | succ i' =>
        cases j with
        | zero => omega
        | succ j' =>
          exact Or.inr (ih.mpr ⟨i', j', by omega, by simpa using hi, by simpa using hj⟩)

theorem coverageClauses_clean (rows : List Row) :
    coverageClauses (coursesOf rows) (preferencesOf rows)
        (varMapOf (coursesOf rows) (slotsOf rows))
      = (coursesOf rows).map (fun c => (preferencesOf rows c).map
          (fun s => posLit (lookupVar (varMapOf (coursesOf rows) (slotsOf rows)) c s))) := by
  rw [coverageClauses]
  have hmap : (coursesOf rows).map (fun c =>
        ((preferencesOf rows c).filter (fun s =>
          (findEntry (varMapOf (coursesOf rows) (slotsOf rows)) (c, s)).isSome)).map
          (fun s => posLit (lookupVar (varMapOf (coursesOf rows) (slotsOf rows)) c s)))
      = (coursesOf rows).map (fun c => (preferencesOf rows c).map
          (fun s => posLit (lookupVar (varMapOf (coursesOf rows) (slotsOf rows)) c s))) := by
    refine List.map_congr_left ?_
    intro c hc
    have hclean : (preferencesOf rows c).filter (fun s =>
        (findEntry (varMapOf (coursesOf rows) (slotsOf rows)) (c, s)).isSome)
        = preferencesOf rows c :=
      List.filter_eq_self.mpr
        (fun s hs => findEntry_isSome hc (preferencesOf_subset_slots hc hs))
    rw [hclean]
  rw [hmap]
  refine List.filter_eq_self.mpr ?_
  intro cl hcl
  rcases List.mem_map.mp hcl with ⟨c, hc, hclc⟩
  rw [← hclc]
  simpa using preferencesOf_ne_nil hc

theorem coverageClauses_mem_iff {rows : List Row} {cl : List Int} :
    cl ∈ coverageClauses (coursesOf rows) (preferencesOf rows)
        (varMapOf (coursesOf rows) (slotsOf rows))
      ↔ ∃ c ∈ coursesOf rows, cl = (preferencesOf rows c).map
          (fun s => posLit (lookupVar (varMapOf (coursesOf rows) (slotsOf rows)) c s)) := by
  rw [coverageClauses_clean]
  simp only [List.mem_map]
  constructor
  · rintro ⟨c, hc, hcl⟩
    exact ⟨c, hc, hcl.symm⟩
  · rintro ⟨c, hc, hcl⟩
    exact ⟨c, hc, hcl.symm⟩

theorem amoClauses_mem_iff {courses slots : List String} {vm : VarDict}
    (hsorted : slots.Sorted (fun a b => strLe a b = true)) (hns : slots.Nodup)
    {cl : List Int} :
    cl ∈ amoClauses courses slots vm
      ↔ ∃ c ∈ courses, ∃ s1 ∈ slots, ∃ s2 ∈ slots, strLt s1 s2 = true
          ∧ cl = [negLit (lookupVar vm c s1), negLit (lookupVar vm c s2)] := by
  rw [amoClauses]
  simp only [List.mem_flatMap, List.mem_map]
  constructor
  · rintro ⟨c, hc, q, hq, hcl⟩
    obtain ⟨h1, h2, h3⟩ := (mem_ordPairs_sorted hsorted hns q.1 q.2).mp hq
    exact ⟨c, hc, q.1, h1, q.2, h2, h3, hcl.symm⟩
  · rintro ⟨c, hc, s1, h1, s2, h2, h3, hcl⟩
    exact ⟨c, hc, (s1, s2),
      (mem_ordPairs_sorted hsorted hns s1 s2).mpr ⟨h1, h2, h3⟩, hcl.symm⟩

theorem clashClauses_mem_iff {courses slots : List String} {vm : VarDict}
    {fm : String → String} {cl : List Int} :
    cl ∈ clashClauses courses slots vm fm
      ↔ ∃ s ∈ slots, ∃ c1 c2 : String,
          (∃ i j : Nat, i < j ∧ courses.get? i = some c1 ∧ courses.get? j = some c2)
          ∧ fm c1 = fm c2
          ∧ cl = [negLit (lookupVar vm c1 s), negLit (lookupVar vm c2 s)] := by
  rw [clashClauses]
  simp only [List.mem_flatMap, List.mem_map]
  constructor
  · rintro ⟨s, hs, p, _, q, hq, hcl⟩
    obtain ⟨hqo, hq1, hq2⟩ := mem_ordPairs_filter.mp hq
    have hfm1 : fm q.1 = p := of_decide_eq_true hq1
    have hfm2 : fm q.2 = p := of_decide_eq_true hq2
    obtain ⟨i, j, hij, hi, hj⟩ := mem_ordPairs_iff_get?.mp hqo
    exact ⟨s, hs, q.1, q.2, ⟨i, j, hij, hi, hj⟩, hfm1.trans hfm2.symm, hcl.symm⟩
  · rintro ⟨s, hs, c1, c2, ⟨i, j, hij, hi, hj⟩, hfm, hcl⟩
    have hc1 : c1 ∈ courses := List.get?_mem hi
    refine ⟨s, hs, fm c1, mem_firstSeen.mpr (List.mem_map.mpr ⟨c1, hc1, rfl⟩),
      (c1, c2), ?_, hcl.symm⟩
    refine mem_ordPairs_filter.mpr
      ⟨mem_ordPairs_iff_get?.mpr ⟨i, j, hij, hi, hj⟩, by simp, by simp [hfm.symm]⟩

/-- The variable id the specification's allocator assigns to a
`(course, slot)` pair: the lookup in the sequential-blocks dictionary. -/
def specVar (rows : List Row) (c s : String) : Nat :=
  lookupVar (vmSpecFrom (slotsOf rows) (coursesOf rows) 1) c s

/-! ### The claims -/

/-- C1: for a table with pairwise-distinct course identifiers, a successful
run of `generate_timetable` outputs exactly one record per course, each
record's slot is drawn from that course's own normalized preference list
(which is `["Unassigned"]` exactly when the fallback applied), each record
carries the course's faculty, and no two records of distinct courses with
the same faculty share a slot. -/
theorem generate_timetable_sat_sound (rows : List Row) (out : List OutRow)
    (hnc : (coursesOf rows).Nodup) (h : generate_timetable rows = some out) :
    (∀ c ∈ coursesOf rows, (out.filter (fun r => decide (r.Course = c))).length = 1)
    ∧ (∀ r ∈ out, r.Course ∈ coursesOf rows ∧ r.Faculty = facultyMapOf rows r.Course
        ∧ r.Slot ∈ preferencesOf rows r.Course)
    ∧ (∀ r1 ∈ out, ∀ r2 ∈ out, r1.Course ≠ r2.Course → r1.Faculty = r2.Faculty →
        r1.Slot ≠ r2.Slot) := by
  obtain ⟨m, _, hsat, hout⟩ := generate_timetable_some h
  rw [hout]
  exact sat_output_props hnc hsat

/-- C2: `generate_timetable` returns the infeasibility signal (`None`)
exactly when the CNF formula it built is unsatisfiable; otherwise it
returns a decoded assignment, never a partial result. -/
theorem generate_timetable_infeasible_iff (rows : List Row) :
    generate_timetable rows = none ↔ ¬ Satisfiable (numVars rows) (cnfOf rows) :=
  generate_timetable_none_iff rows

/-- C3: for pairwise-distinct course identifiers, the `(course, slot) → id`
dictionary is exactly the product `courses × slot_universe` (courses in row
order, slots in sorted order) paired with the sequential ids
`1, …, |courses|·|slots|`; keys are pairwise distinct and the id list is
exactly `range` starting at 1, so the mapping is a total bijection. -/
theorem variable_allocation_bijection (rows : List Row)
    (hnc : (coursesOf rows).Nodup) :
    varMapOf (coursesOf rows) (slotsOf rows)
      = ((coursesOf rows).flatMap (fun c => (slotsOf rows).map (fun s => (c, s)))).zip
          (List.range' 1 ((coursesOf rows).length * (slotsOf rows).length))
    ∧ ((varMapOf (coursesOf rows) (slotsOf rows)).map Prod.fst).Nodup
    ∧ (varMapOf (coursesOf rows) (slotsOf rows)).map Prod.snd
        = List.range' 1 ((coursesOf rows).length * (slotsOf rows).length) := by
  have hns := slotsOf_nodup rows
  refine ⟨?_, varMap_keys_nodup hnc hns, ?_⟩
  · rw [varMapOf_eq_spec hnc hns, vmSpecFrom_eq_zip]
  · rw [varMapOf_eq_spec hnc hns, vmSpecFrom_eq_zip]
    refine List.map_snd_zip _ _ ?_
    rw [length_prodList, List.length_range']

/-- C6: the encoding stage is a pure function of the input rows: whatever
enumeration order the in-memory slot set hands to `sorted`, the resulting
variable dictionary and CNF formula are bit-identical. -/
theorem encode_deterministic (rows : List Row) (enum1 enum2 : List String)
    (h1 : List.Perm enum1 (allSlotsList rows))
    (h2 : List.Perm enum2 (allSlotsList rows)) :
    encodeFrom rows enum1 = encodeFrom rows enum2 := by
  rw [encodeFrom, encodeFrom, slotsOfEnum_perm_eq (h1.trans h2.symm)]

/-- C8: two rows with distinct course identifiers, the same faculty, and
preference lists both normalizing to the same single label make the CNF
unsatisfiable, and the pipeline returns the infeasibility signal. -/
theorem same_faculty_single_slot_unsat (r1 r2 : Row) (L : String)
    (hcne : pdStr r1.Course ≠ pdStr r2.Course)
    (hfac : pdStr r1.Faculty = pdStr r2.Faculty)
    (hp1 : preferencesOf [r1, r2] (pdStr r1.Course) = [L])
    (hp2 : preferencesOf [r1, r2] (pdStr r2.Course) = [L]) :
    ¬ Satisfiable (numVars [r1, r2]) (cnfOf [r1, r2])
    ∧ generate_timetable [r1, r2] = none := by
  have hunsat : ¬ Satisfiable (numVars [r1, r2]) (cnfOf [r1, r2]) := by
    rintro ⟨m, _, hsat⟩
    have hc1 : pdStr r1.Course ∈ coursesOf [r1, r2] := by
      simp [coursesOf]
    have hc2 : pdStr r2.Course ∈ coursesOf [r1, r2] := by
      simp [coursesOf]
    obtain ⟨s1, hs1p, ht1⟩ := model_covers hsat hc1
    obtain ⟨s2, hs2p, ht2⟩ := model_covers hsat hc2
    rw [hp1] at hs1p
    rw [hp2] at hs2p
    have hs1L : s1 = L := by simpa using hs1p
    have hs2L : s2 = L := by simpa using hs2p
    subst hs1L
    rw [hs2L] at ht2
    have hLs : s1 ∈ slotsOf [r1, r2] :=
      preferencesOf_subset_slots hc1 (by rw [hp1]; exact List.mem_singleton.mpr rfl)
    have hl1 : lastRowFor [r1, r2] (pdStr r1.Course) = some r1 := by
      rw [lastRowFor, show ([r1, r2] : List Row).reverse = [r2, r1] from rfl]
      rw [List.find?_cons_of_neg _ (by simpa using Ne.symm hcne)]
      rw [List.find?_cons_of_pos _ (by simp)]
    have hl2 : lastRowFor [r1, r2] (pdStr r2.Course) = some r2 := by
      rw [lastRowFor, show ([r1, r2] : List Row).reverse = [r2, r1] from rfl]
      rw [List.find?_cons_of_pos _ (by simp)]
    have hfm : facultyMapOf [r1, r2] (pdStr r1.Course)
        = facultyMapOf [r1, r2] (pdStr r2.Course) := by
      rw [facultyMapOf, facultyMapOf, hl1, hl2]
      exact hfac
    exact model_noClash hsat hc1 hc2 hcne hfm hLs ⟨ht1, ht2⟩
  exact ⟨hunsat, (generate_timetable_none_iff [r1, r2]).mpr hunsat⟩

/-- C7: for a table with pairwise-distinct course identifiers, the CNF
consists exactly of the three clause families: one coverage clause per
course listing the positive variables of that course's own preference
list; one two-negative-literal clause per course and per unordered pair
of distinct universe slots (written with the lexicographically smaller
slot first); and one two-negative-literal clause per slot and per
unordered pair of distinct courses sharing a faculty (written in row
order), with all variable ids drawn from the specification's sequential
allocator. -/
theorem cnf_clause_families (rows : List Row) (hnc : (coursesOf rows).Nodup)
    (cl : List Int) :
    cl ∈ cnfOf rows ↔
      (∃ c ∈ coursesOf rows,
        cl = (preferencesOf rows c).map (fun s => posLit (specVar rows c s)))
      ∨ (∃ c ∈ coursesOf rows, ∃ s1 ∈ slotsOf rows, ∃ s2 ∈ slotsOf rows,
          strLt s1 s2 = true
          ∧ cl = [negLit (specVar rows c s1), negLit (specVar rows c s2)])
      ∨ (∃ s ∈ slotsOf rows, ∃ c1 c2 : String,
          (∃ i j : Nat, i < j ∧ (coursesOf rows).get? i = some c1
            ∧ (coursesOf rows).get? j = some c2)
          ∧ facultyMapOf rows c1 = facultyMapOf rows c2
          ∧ cl = [negLit (specVar rows c1 s), negLit (specVar rows c2 s)]) := by
  have hns := slotsOf_nodup rows
  have hsorted := slotsOf_sorted rows
  have hspec : ∀ c s, lookupVar (varMapOf (coursesOf rows) (slotsOf rows)) c s
      = specVar rows c s := by
    intro c s
    rw [specVar, varMapOf_eq_spec hnc hns]
  rw [cnfOf_eq]
  simp only [List.mem_append]
  rw [coverageClauses_mem_iff, amoClauses_mem_iff hsorted hns, clashClauses_mem_iff]
  simp only [hspec]
  exact or_assoc

/-- C9: a table in which some course identifier occurs in two or more rows
always drives the solver to UNSAT, so `generate_timetable` returns the
infeasibility signal: the duplicated course is paired with itself in its
faculty group, forcing all of its variables false against its coverage
clause. -/
theorem duplicate_course_infeasible (rows : List Row)
    (hdup : ¬ (coursesOf rows).Nodup) : generate_timetable rows = none :=
  (generate_timetable_none_iff rows).mpr (cnf_unsat_of_dup hdup)

/-- C4 counterexample: in a table where the course identifier of a row
with a missing `PreferredSlots` field reappears in a later row, the later
row wins the preference dictionary, so the claim's per-row reading fails:
the first row's field is missing, yet the course's normalized list is
`["Mon"]` rather than `["Unassigned"]`, and the sentinel never enters the
slot universe. -/
theorem pref_fallback_per_row_counterexample :
    (⟨some "C", some "F", none⟩ : Row)
        ∈ ([⟨some "C", some "F", none⟩, ⟨some "C", some "F", some "Mon"⟩] : List Row)
    ∧ (⟨some "C", some "F", none⟩ : Row).PreferredSlots = none
    ∧ preferencesOf [⟨some "C", some "F", none⟩, ⟨some "C", some "F", some "Mon"⟩]
        (pdStr (⟨some "C", some "F", none⟩ : Row).Course) = ["Mon"]
    ∧ "Unassigned" ∉ slotsOf
        [⟨some "C", some "F", none⟩, ⟨some "C", some "F", some "Mon"⟩] := by
  decide

/-- C4 (amended: restricted to tables whose course identifiers are
pairwise distinct): a row whose `PreferredSlots` field is missing, or
whose comma-separated tokens all trim to empty, gets the normalized list
`["Unassigned"]` and the sentinel joins the slot universe; otherwise the
normalized list is exactly the trimmed non-empty tokens in order. -/
theorem pref_normalization (rows : List Row) (r : Row)
    (hnc : (coursesOf rows).Nodup) (hr : r ∈ rows) :
    ((r.PreferredSlots = none
        ∨ ∃ raw, r.PreferredSlots = some raw
            ∧ ((pySplitComma (pyStrip raw)).map pyStrip).filter (fun t => t ≠ "") = []) →
      preferencesOf rows (pdStr r.Course) = ["Unassigned"]
        ∧ "Unassigned" ∈ slotsOf rows)
    ∧ (∀ raw, r.PreferredSlots = some raw →
        ((pySplitComma (pyStrip raw)).map pyStrip).filter (fun t => t ≠ "") ≠ [] →
        preferencesOf rows (pdStr r.Course)
          = ((pySplitComma (pyStrip raw)).map pyStrip).filter (fun t => t ≠ "")) := by
  have hlast := lastRowFor_nodup hnc hr
  constructor
  · intro hcond
    have hempty : splitPrefs r.PreferredSlots = [] := by
      rcases hcond with h | ⟨raw, hraw, hfil⟩
      · rw [h]
        rfl
      · rw [hraw, splitPrefs_some, hfil]
    refine ⟨?_, unassigned_mem_slots hr hempty hlast⟩
    simp only [preferencesOf, hlast]
    rw [if_pos hempty]
  · intro raw hraw hfil
    have hsp : splitPrefs r.PreferredSlots
        = ((pySplitComma (pyStrip raw)).map pyStrip).filter (fun t => t ≠ "") := by
      rw [hraw, splitPrefs_some]
    simp only [preferencesOf, hlast]
    rw [hsp, if_neg hfil]

/-- C5: the `MalformedRowError` contract is absent from the code: a row
lacking a course or faculty identifier is silently coerced to the string
"nan" by the pandas string conversion and scheduled like any other
identifier; no validation error interrupts the pipeline. -/
theorem missing_fields_not_rejected :
    generate_timetable [⟨none, some "F1", some "M"⟩] = some [⟨"nan", "F1", "M"⟩]
    ∧ coursesOf [⟨none, some "F1", some "M"⟩] = ["nan"]
    ∧ generate_timetable [⟨some "C1", none, some "M"⟩]
        = some [⟨"C1", "nan", "M"⟩] := by
  decide

/-- C10: the empty table is a successful (SAT) outcome, not an error or
infeasibility: the slot universe, variable dictionary and CNF are all
empty, the solver returns the empty model, and the result is the empty
assignment table. -/
theorem empty_table_success :
    generate_timetable [] = some []
    ∧ slotsOf [] = []
    ∧ varMapOf (coursesOf []) (slotsOf []) = []
    ∧ cnfOf [] = []
    ∧ findModel (numVars []) (cnfOf []) = some [] := by
  refine ⟨rfl, rfl, rfl, rfl, rfl⟩

/-! ### Witnesses -/

theorem generate_timetable_sat_sound_witness :
    (∀ c ∈ coursesOf [⟨some "A", some "F", some "x"⟩, ⟨some "B", some "G", some "x"⟩],
      (([(⟨"A", "F", "x"⟩ : OutRow), ⟨"B", "G", "x"⟩]).filter
        (fun r => decide (r.Course = c))).length = 1)
    ∧ (∀ r ∈ [(⟨"A", "F", "x"⟩ : OutRow), ⟨"B", "G", "x"⟩],
        r.Course ∈ coursesOf [⟨some "A", some "F", some "x"⟩, ⟨some "B", some "G", some "x"⟩]
        ∧ r.Faculty = facultyMapOf
            [⟨some "A", some "F", some "x"⟩, ⟨some "B", some "G", some "x"⟩] r.Course
        ∧ r.Slot ∈ preferencesOf
            [⟨some "A", some "F", some "x"⟩, ⟨some "B", some "G", some "x"⟩] r.Course)
    ∧ (∀ r1 ∈ [(⟨"A", "F", "x"⟩ : OutRow), ⟨"B", "G", "x"⟩],
        ∀ r2 ∈ [(⟨"A", "F", "x"⟩ : OutRow), ⟨"B", "G", "x"⟩],
        r1.Course ≠ r2.Course → r1.Faculty = r2.Faculty → r1.Slot ≠ r2.Slot) :=
  generate_timetable_sat_sound
    [⟨some "A", some "F", some "x"⟩, ⟨some "B", some "G", some "x"⟩]
    [⟨"A", "F", "x"⟩, ⟨"B", "G", "x"⟩] (by decide) (by decide)

theorem variable_allocation_bijection_witness :
    varMapOf (coursesOf [⟨some "A", some "F", some "y,x"⟩, ⟨some "B", some "G", some "x"⟩])
        (slotsOf [⟨some "A", some "F", some "y,x"⟩, ⟨some "B", some "G", some "x"⟩])
      = ((coursesOf [⟨some "A", some "F", some "y,x"⟩, ⟨some "B", some "G", some "x"⟩]).flatMap
          (fun c => (slotsOf [⟨some "A", some "F", some "y,x"⟩,
            ⟨some "B", some "G", some "x"⟩]).map (fun s => (c, s)))).zip
          (List.range' 1
            ((coursesOf [⟨some "A", some "F", some "y,x"⟩,
              ⟨some "B", some "G", some "x"⟩]).length
              * (slotsOf [⟨some "A", some "F", some "y,x"⟩,
                ⟨some "B", some "G", some "x"⟩]).length))
    ∧ ((varMapOf (coursesOf [⟨some "A", some "F", some "y,x"⟩, ⟨some "B", some "G", some "x"⟩])
        (slotsOf [⟨some "A", some "F", some "y,x"⟩,
          ⟨some "B", some "G", some "x"⟩])).map Prod.fst).Nodup
    ∧ (varMapOf (coursesOf [⟨some "A", some "F", some "y,x"⟩, ⟨some "B", some "G", some "x"⟩])
        (slotsOf [⟨some "A", some "F", some "y,x"⟩,
          ⟨some "B", some "G", some "x"⟩])).map Prod.snd
        = List.range' 1
            ((coursesOf [⟨some "A", some "F", some "y,x"⟩,
              ⟨some "B", some "G", some "x"⟩]).length
              * (slotsOf [⟨some "A", some "F", some "y,x"⟩,
                ⟨some "B", some "G", some "x"⟩]).length) :=
  variable_allocation_bijection _ (by decide)

theorem pref_normalization_witness :
    (preferencesOf [⟨some "A", some "F", none⟩] "A" = ["Unassigned"]
      ∧ "Unassigned" ∈ slotsOf [⟨some "A", some "F", none⟩])
    ∧ preferencesOf [⟨some "B", some "G", some " a ,, b "⟩] "B" = ["a", "b"] := by
  constructor
  · exact (pref_normalization [⟨some "A", some "F", none⟩] ⟨some "A", some "F", none⟩
      (by decide) (by decide)).1 (Or.inl rfl)
  · have h := (pref_normalization [⟨some "B", some "G", some " a ,, b "⟩]
      ⟨some "B", some "G", some " a ,, b "⟩ (by decide) (by decide)).2
      " a ,, b " rfl (by decide)
    exact h.trans (by decide)

theorem encode_deterministic_witness :
    encodeFrom [⟨some "A", some "F", some "y,x"⟩, ⟨some "B", some "G", some "x"⟩]
        ["x", "x", "y"]
      = encodeFrom [⟨some "A", some "F", some "y,x"⟩, ⟨some "B", some "G", some "x"⟩]
        ["y", "x", "x"] :=
  encode_deterministic _ _ _ (by decide) (by decide)

theorem cnf_clause_families_witness :
    ([-1, -3] : List Int)
      ∈ cnfOf [⟨some "A", some "F", some "y,x"⟩, ⟨some "B", some "F", some "x"⟩] :=
  (cnf_clause_families
      [⟨some "A", some "F", some "y,x"⟩, ⟨some "B", some "F", some "x"⟩]
      (by decide) [-1, -3]).mpr
    (Or.inr (Or.inr ⟨"x", by decide, "A", "B",
      ⟨0, 1, by decide, by decide, by decide⟩, by decide, by decide⟩))

theorem same_faculty_single_slot_unsat_witness :
    ¬ Satisfiable
        (numVars [⟨some "A", some "F", some "x"⟩, ⟨some "B", some "F", some "x"⟩])
        (cnfOf [⟨some "A", some "F", some "x"⟩, ⟨some "B", some "F", some "x"⟩])
    ∧ generate_timetable
        [⟨some "A", some "F", some "x"⟩, ⟨some "B", some "F", some "x"⟩] = none :=
  same_faculty_single_slot_unsat
    ⟨some "A", some "F", some "x"⟩ ⟨some "B", some "F", some "x"⟩ "x"
    (by decide) (by decide) (by decide) (by decide)

theorem duplicate_course_infeasible_witness :
    generate_timetable
      [⟨some "A", some "F", some "x"⟩, ⟨some "A", some "F", some "y"⟩] = none :=
  duplicate_course_infeasible _ (by decide)

end CourseScheduler
